import Mathlib

/-!
Verification of the diff-chunking and diff-resolution core of a
pull-request review action (source: src/entrypoint.py).

Texts are modelled as lists of characters; Python string primitives
(slice, rfind, strip) are modelled with their documented semantics,
including negative-index normalisation.  The chunking loop of
chunk_text is modelled with explicit fuel, because for some inputs
(max_chars <= 0) the Python loop does not terminate: non-termination is
expressed as the loop returning none for every fuel value.
-/

set_option maxRecDepth 100000

/-- Python index normalisation for slices and for the start/end bounds of
str.rfind: a negative index counts from the end of the string (clamped
below at 0), a non-negative index is clamped above at the length. -/
def pyNormIdx (len : Nat) (i : Int) : Nat :=
  if i < 0 then (i + len).toNat else min i.toNat len

/-- Python slice s[a:b] with int indices. -/
def pySlice (s : List Char) (a b : Int) : List Char :=
  (s.take (pyNormIdx s.length b)).drop (pyNormIdx s.length a)

/-- Forward scan underlying rfind: walks the window, remembering the last
index (absolute position i) at which sub occurs with i + sub.length <= b.
Because the scan is forward and overwrites, the result is the highest
matching index, as Python's rfind returns. -/
def rfindGo (sub : List Char) (b : Nat) : List Char → Nat → Option Nat → Option Nat
  | [], _, best => best
  | c :: t, i, best =>
    rfindGo sub b t (i + 1)
      (if i + sub.length ≤ b ∧ sub.isPrefixOf (c :: t) then some i else best)

/-- Python text.rfind(sub, a, b): highest index i with a' <= i,
i + len(sub) <= b' (a', b' the normalised bounds) at which sub occurs,
or -1 when there is none. -/
def pyRfind (s sub : List Char) (a b : Int) : Int :=
  let a' := pyNormIdx s.length a
  let b' := pyNormIdx s.length b
  match rfindGo sub b' ((s.take b').drop a') a' none with
  | some i => (i : Int)
  | none => -1

/-- The first marker searched by chunk_text.  The Python source literal is
"\\n@@", which denotes the four characters backslash, n, at, at — a
literal backslash followed by n, not a newline character. -/
def hunkMarker : List Char := ['\\', 'n', '@', '@']

/-- The second marker searched by chunk_text.  The Python source literal is
"\\ndiff --git ", again beginning with a literal backslash and n. -/
def diffMarker : List Char := ['\\', 'n', 'd', 'i', 'f', 'f', ' ', '-', '-', 'g', 'i', 't', ' ']

/-- The split point chosen by one iteration of the chunk_text loop
(entrypoint.py lines 100-105): the window end
e = min(start + max_chars, len(text)), overridden by the last occurrence
of a marker in the window when that occurrence lies more than 1000
characters after start. -/
def splitPoint (text : List Char) (maxChars start : Int) : Int :=
  let e := min (start + maxChars) (text.length : Int)
  let h1 := pyRfind text hunkMarker start e
  let h2 := if h1 = -1 ∨ h1 ≤ start + 1000 then pyRfind text diffMarker start e else h1
  if h2 = -1 ∨ h2 ≤ start + 1000 then e else h2

/-- The while-loop of chunk_text (entrypoint.py lines 99-107), with
explicit fuel.  A result of none for every fuel value means the Python
loop does not terminate. -/
def chunkLoop (text : List Char) (maxChars : Int) : Nat → Int → List (List Char) → Option (List (List Char))
  | 0, _, _ => none
  | fuel + 1, start, chunks =>
    if start < (text.length : Int) then
      chunkLoop text maxChars fuel (splitPoint text maxChars start)
        (chunks ++ [pySlice text start (splitPoint text maxChars start)])
    else
      some chunks

/-- The set of characters stripped by Python str.strip(): ASCII
whitespace, the ASCII separator controls, next-line, and the Unicode
space/line/paragraph separators. -/
def pyWhitespaceChars : List Char :=
  [' ', '\t', '\n', '\x0b', '\x0c', '\r', '\x1c', '\x1d', '\x1e', '\x1f', '\x85',
   '\xa0', '\u1680', '\u2000', '\u2001', '\u2002', '\u2003', '\u2004', '\u2005',
   '\u2006', '\u2007', '\u2008', '\u2009', '\u200a', '\u2028', '\u2029', '\u202f',
   '\u205f', '\u3000']

/-- Whether Python str.strip() removes this character. -/
def pyIsSpace (c : Char) : Bool := pyWhitespaceChars.contains c

/-- Python str.strip(): drop whitespace from both ends. -/
def pyStrip (s : List Char) : List Char :=
  ((s.dropWhile pyIsSpace).reverse.dropWhile pyIsSpace).reverse

/-- The filter predicate of entrypoint.py line 108: a chunk is kept when
it is truthy after strip(), i.e. non-empty after trimming whitespace. -/
def keepChunk (c : List Char) : Bool := !(pyStrip c).isEmpty

/-- chunk_text (entrypoint.py lines 95-108).  The fuel text.length + 1 is
sufficient whenever the Python loop terminates at all (each productive
iteration advances start by at least one when max_chars >= 1). -/
def chunk_text (text : List Char) (maxChars : Int) : Option (List (List Char)) :=
  if (text.length : Int) ≤ maxChars then some [text]
  else (chunkLoop text maxChars (text.length + 1) 0 []).map (List.filter keepChunk)

/-- Outcomes of the git commands invoked by get_diff.  Each field is the
result of the corresponding external process: .ok stdout on exit code 0,
.error () on a non-zero exit (the Python wrapper sh raises SystemExit,
which every call site of get_diff catches). -/
structure GitOracle where
  fetch : Except Unit (List Char)
  remoteAdd : Except Unit (List Char)
  fetchRetry : Except Unit (List Char)
  revParse : List Char → Except Unit (List Char)
  diff3 : List Char → Except Unit (List Char)
  mergeBase : Except Unit (List Char)
  diff2 : List Char → Except Unit (List Char)
  diffHead : Except Unit (List Char)

/-- Step 1 of get_diff (entrypoint.py lines 58-66): fetch the base ref,
retrying after adding a local origin; every failure is swallowed and no
value is used afterwards. -/
def fetchPhase (o : GitOracle) : Unit :=
  match o.fetch with
  | .ok _ => ()
  | .error _ =>
    match o.remoteAdd with
    | .ok _ =>
      match o.fetchRetry with
      | .ok _ => ()
      | .error _ => ()
    | .error _ => ()

/-- The candidate base refs of entrypoint.py lines 68-72, in preference
order. -/
def candidates (base_ref : List Char) : List (List Char) :=
  ["origin/".data ++ base_ref, base_ref]

/-- The candidate loop of entrypoint.py lines 75-80: for the first
candidate that rev-parses, attempt the three-dot diff; a failing diff
falls through to the next candidate. -/
def tryCandidates (o : GitOracle) : List (List Char) → Option (List Char)
  | [] => none
  | b :: rest =>
    match o.revParse b with
    | .ok _ =>
      match o.diff3 b with
      | .ok out => some (pyStrip out)
      | .error _ => tryCandidates o rest
    | .error _ => tryCandidates o rest

/-- Step 4 of get_diff (entrypoint.py lines 91-94): diff HEAD~1..HEAD,
returning the empty string if even that fails. -/
def lastResort (o : GitOracle) : Except Unit (List Char) :=
  match o.diffHead with
  | .ok out => .ok (pyStrip out)
  | .error _ => .ok []

/-- get_diff (entrypoint.py lines 56-94) over a git-command oracle.  An
uncaught SystemExit would surface as .error; the fallback chain catches
every failure, so the result is always .ok. -/
def get_diff (o : GitOracle) (base_ref head_sha : List Char) : Except Unit (List Char) :=
  let _ := fetchPhase o
  let _ := head_sha
  match tryCandidates o (candidates base_ref) with
  | some out => .ok out
  | none =>
    match o.mergeBase with
    | .ok mbOut =>
      if pyStrip mbOut ≠ [] then
        match o.diff2 (pyStrip mbOut) with
        | .ok out => .ok (pyStrip out)
        | .error _ => lastResort o
      else lastResort o
    | .error _ => lastResort o

/-- The truncation notice of entrypoint.py lines 188-190: the text of the
triple-quoted literal, including its embedded newlines and the indentation
of the continuation lines (8 spaces, then 16 spaces). -/
def truncNotice : List Char :=
  "_Note: Review truncated due to size limits.\n        \n                ".data

/-- The body-size cap of entrypoint.py lines 187-190: a body longer than
18000 characters is replaced by the truncation notice followed by the
slice body[-18000:]. -/
def finalizeBody (body : List Char) : List Char :=
  if 18000 < body.length then truncNotice ++ pySlice body (-18000) (body.length : Int)
  else body

/-- A text with a genuine hunk-header marker — a newline character
immediately followed by two at-signs — at position 1001, more than 1000
characters into the window, and no literal backslash anywhere. -/
def c2DemoText : List Char :=
  List.replicate 1001 'a' ++ '\n' :: '@' :: '@' :: List.replicate 2 'b'

/-- An oracle in which origin/b rev-parses, the three-dot diff against it
succeeds with empty output, and the HEAD~1..HEAD diff would succeed with
non-empty output. -/
def c5Oracle : GitOracle where
  fetch := .ok []
  remoteAdd := .error ()
  fetchRetry := .error ()
  revParse := fun r => if r = "origin/".data ++ ['b'] then .ok ['s'] else .error ()
  diff3 := fun r => if r = "origin/".data ++ ['b'] then .ok [] else .error ()
  mergeBase := .error ()
  diff2 := fun _ => .error ()
  diffHead := .ok ['+', 'x']

/-- An oracle in which every git command fails. -/
def allFailOracle : GitOracle where
  fetch := .error ()
  remoteAdd := .error ()
  fetchRetry := .error ()
  revParse := fun _ => .error ()
  diff3 := fun _ => .error ()
  mergeBase := .error ()
  diff2 := fun _ => .error ()
  diffHead := .error ()

/-- An oracle in which origin/m rev-parses and the three-dot diff against
it succeeds; every other command fails. -/
def c6Oracle : GitOracle where
  fetch := .ok []
  remoteAdd := .error ()
  fetchRetry := .error ()
  revParse := fun r => if r = "origin/".data ++ ['m'] then .ok ['s'] else .error ()
  diff3 := fun r => if r = "origin/".data ++ ['m'] then .ok ['+', 'a'] else .error ()
  mergeBase := .error ()
  diff2 := fun _ => .error ()
  diffHead := .error ()

example : chunk_text ['a'] 5 = some [['a']] := by decide
example : chunk_text ['a', 'b', 'c', 'd', 'e'] 2 = some [['a','b'], ['c','d'], ['e']] := by decide
example : chunk_text [' ', ' '] 1 = some [] := by decide
example : chunk_text [' '] 10 = some [[' ']] := by decide
example : chunk_text [] 0 = some [[]] := by decide
example : chunk_text [] (-1) = some [] := by decide
example : chunk_text [' '] 0 = none := rfl

/-! Bounds on the rfind model. -/

theorem rfindGo_bound (sub : List Char) (b : Nat) (l : List Char) :
    ∀ (i : Nat) (best : Option Nat),
      (∀ j, best = some j → j + sub.length ≤ b) →
      ∀ j, rfindGo sub b l i best = some j → j + sub.length ≤ b := by
  induction l with
  | nil =>
    intro i best hbest j hj
    simp only [rfindGo] at hj
    exact hbest j hj
  | cons c t ih =>
    intro i best hbest j hj
    rw [rfindGo] at hj
    refine ih (i + 1) _ ?_ j hj
    intro k hk
    by_cases hc : i + sub.length ≤ b ∧ sub.isPrefixOf (c :: t)
    · rw [if_pos hc] at hk
      simp only [Option.some.injEq] at hk
      subst hk
      exact hc.1
    · rw [if_neg hc] at hk
      exact hbest k hk

theorem pyNormIdx_le (len : Nat) (i : Int) : pyNormIdx len i ≤ len := by
  unfold pyNormIdx
  split <;> omega

theorem pyNormIdx_cast_le (len : Nat) (i : Int) (h : 0 ≤ i) :
    (pyNormIdx len i : Int) ≤ i := by
  unfold pyNormIdx
  split <;> omega

theorem pyNormIdx_of_le (len : Nat) (i : Int) (h0 : 0 ≤ i) (h1 : i ≤ (len : Int)) :
    pyNormIdx len i = i.toNat := by
  unfold pyNormIdx
  split <;> omega

theorem pyRfind_cases (s sub : List Char) (a b : Int) :
    pyRfind s sub a b = -1 ∨
    ∃ j : Nat, pyRfind s sub a b = (j : Int) ∧ j + sub.length ≤ pyNormIdx s.length b := by
  unfold pyRfind
  rcases hgo : rfindGo sub (pyNormIdx s.length b)
      ((s.take (pyNormIdx s.length b)).drop (pyNormIdx s.length a))
      (pyNormIdx s.length a) none with _ | j
  · left
    simp [hgo]
  · right
    refine ⟨j, by simp [hgo], ?_⟩
    exact rfindGo_bound sub _ _ _ none (by intro k hk; cases hk) j hgo

/-! Bounds on the split point. -/

theorem splitPoint_le (text : List Char) (mc start : Int) :
    splitPoint text mc start ≤ (text.length : Int) := by
  have e4 : hunkMarker.length = 4 := rfl
  have e13 : diffMarker.length = 13 := rfl
  have hmin : min (start + mc) (text.length : Int) ≤ (text.length : Int) := min_le_right _ _
  simp only [splitPoint]
  rcases pyRfind_cases text hunkMarker start (min (start + mc) (text.length : Int)) with h1 | ⟨j1, h1, hb1⟩ <;>
    rcases pyRfind_cases text diffMarker start (min (start + mc) (text.length : Int)) with h2 | ⟨j2, h2, hb2⟩ <;>
    rw [h1, h2] <;>
    have n1 := pyNormIdx_le text.length (min (start + mc) (text.length : Int)) <;>
    split_ifs <;>
    omega

theorem splitPoint_gt (text : List Char) (mc start : Int) (hmc : 1 ≤ mc)
    (hs0 : 0 ≤ start) (hs : start < (text.length : Int)) :
    start < splitPoint text mc start := by
  simp only [splitPoint]
  rcases pyRfind_cases text hunkMarker start (min (start + mc) (text.length : Int)) with h1 | ⟨j1, h1, hb1⟩ <;>
    rcases pyRfind_cases text diffMarker start (min (start + mc) (text.length : Int)) with h2 | ⟨j2, h2, hb2⟩ <;>
    rw [h1, h2] <;>
    split_ifs <;>
    omega

theorem splitPoint_eq_min (text : List Char) (mc start : Int) (hmc : 1 ≤ mc)
    (hmc2 : mc ≤ 1000) (hs0 : 0 ≤ start) :
    splitPoint text mc start = min (start + mc) (text.length : Int) := by
  have e4 : hunkMarker.length = 4 := rfl
  have e13 : diffMarker.length = 13 := rfl
  have hmin0 : 0 ≤ min (start + mc) (text.length : Int) ∨ True := Or.inr trivial
  have hcast := pyNormIdx_cast_le text.length (min (start + mc) (text.length : Int))
  simp only [splitPoint]
  rcases pyRfind_cases text hunkMarker start (min (start + mc) (text.length : Int)) with h1 | ⟨j1, h1, hb1⟩ <;>
    rcases pyRfind_cases text diffMarker start (min (start + mc) (text.length : Int)) with h2 | ⟨j2, h2, hb2⟩ <;>
    rw [h1, h2] <;>
    split_ifs <;>
    first
      | rfl
      | (exfalso
         have hle : (pyNormIdx text.length (min (start + mc) (text.length : Int)) : Int) ≤ min (start + mc) (text.length : Int) := by
           apply hcast
           rcases le_or_lt 0 (text.length : Int) with h | h <;> omega
         omega)

/-! Python slice facts. -/

theorem pySlice_eq (s : List Char) (a b : Int) (ha : 0 ≤ a) (hal : a ≤ (s.length : Int))
    (hb : 0 ≤ b) (hbl : b ≤ (s.length : Int)) :
    pySlice s a b = (s.take b.toNat).drop a.toNat := by
  unfold pySlice
  rw [pyNormIdx_of_le s.length a ha hal, pyNormIdx_of_le s.length b hb hbl]

theorem take_drop_join (l : List Char) (a b : Nat) (hab : a ≤ b) (hb : b ≤ l.length) :
    (l.take b).drop a ++ l.drop b = l.drop a := by
  conv_rhs => rw [← List.take_append_drop b l]
  rw [List.drop_append_of_le_length]
  rw [List.length_take]
  omega

theorem pySlice_join (s : List Char) (a b : Int) (ha : 0 ≤ a) (hab : a ≤ b)
    (hbl : b ≤ (s.length : Int)) :
    pySlice s a b ++ s.drop b.toNat = s.drop a.toNat := by
  rw [pySlice_eq s a b ha (le_trans hab hbl) (le_trans ha hab) hbl]
  apply take_drop_join <;> omega

theorem pySlice_length (s : List Char) (a b : Int) (ha : 0 ≤ a) (hab : a ≤ b)
    (hbl : b ≤ (s.length : Int)) :
    ((pySlice s a b).length : Int) = b - a := by
  rw [pySlice_eq s a b ha (le_trans hab hbl) (le_trans ha hab) hbl]
  rw [List.length_drop, List.length_take]
  omega

/-! Facts about dropWhile and the strip model. -/

theorem dropWhile_dropWhile (p : Char → Bool) (l : List Char) :
    (l.dropWhile p).dropWhile p = l.dropWhile p := by
  induction l with
  | nil => rfl
  | cons c t ih => by_cases h : p c <;> simp [List.dropWhile_cons, h, ih]

theorem head_dropWhile_false (p : Char → Bool) (l : List Char) :
    ∀ x, (l.dropWhile p).head? = some x → p x = false := by
  induction l with
  | nil => intro x hx; cases hx
  | cons c t ih =>
    intro x hx
    by_cases h : p c
    · rw [List.dropWhile_cons, if_pos h] at hx
      exact ih x hx
    · rw [List.dropWhile_cons, if_neg h] at hx
      simp only [List.head?_cons, Option.some.injEq] at hx
      subst hx
      exact Bool.eq_false_iff.mpr h

theorem dropWhile_eq_self (p : Char → Bool) (l : List Char)
    (h : ∀ x, l.head? = some x → p x = false) : l.dropWhile p = l := by
  cases l with
  | nil => rfl
  | cons c t =>
    rw [List.dropWhile_cons, if_neg]
    simp [h c rfl]

theorem getLast?_dropWhile (p : Char → Bool) (l : List Char)
    (h : l.dropWhile p ≠ []) : (l.dropWhile p).getLast? = l.getLast? := by
  induction l with
  | nil => simp at h
  | cons c t ih =>
    by_cases hc : p c
    · rw [List.dropWhile_cons, if_pos hc] at h ⊢
      rw [ih h]
      have ht : t ≠ [] := by rintro rfl; simp at h
      cases t with
      | nil => exact absurd rfl ht
      | cons x xs => rfl
    · rw [List.dropWhile_cons, if_neg hc]

theorem pyStrip_idem (s : List Char) : pyStrip (pyStrip s) = pyStrip s := by
  unfold pyStrip
  set A := s.dropWhile pyIsSpace with hA
  set B := A.reverse.dropWhile pyIsSpace with hB
  have stepa : B.reverse.dropWhile pyIsSpace = B.reverse := by
    apply dropWhile_eq_self
    intro x hx
    rw [List.head?_reverse] at hx
    rcases hBn : B with _ | ⟨y, ys⟩
    · rw [hBn] at hx; cases hx
    · have hBne : A.reverse.dropWhile pyIsSpace ≠ [] := by
        rw [← hB, hBn]; simp
      rw [hB, getLast?_dropWhile pyIsSpace A.reverse hBne] at hx
      rw [List.getLast?_reverse] at hx
      exact head_dropWhile_false pyIsSpace s x hx
  rw [stepa, List.reverse_reverse, hB, dropWhile_dropWhile]

theorem pyStrip_eq_nil_iff (s : List Char) :
    pyStrip s = [] ↔ ∀ c ∈ s, pyIsSpace c = true := by
  unfold pyStrip
  rw [List.reverse_eq_nil_iff, List.dropWhile_eq_nil_iff]
  simp only [List.mem_reverse]
  constructor
  · intro h c hc
    have hs := List.takeWhile_append_dropWhile (p := pyIsSpace) (l := s)
    rw [← hs] at hc
    rcases List.mem_append.mp hc with hmem | hmem
    · exact List.mem_takeWhile_imp hmem
    · exact h c hmem
  · intro h c hc
    apply h
    have hs := List.takeWhile_append_dropWhile (p := pyIsSpace) (l := s)
    rw [← hs]
    exact List.mem_append.mpr (Or.inr hc)

theorem keepChunk_false_iff (c : List Char) :
    keepChunk c = false ↔ ∀ x ∈ c, pyIsSpace x = true := by
  unfold keepChunk
  rw [Bool.not_eq_false']
  rw [List.isEmpty_iff]
  exact pyStrip_eq_nil_iff c

/-! The main characterisation of the chunking loop for max_chars >= 1:
it terminates within text.length + 1 fuel, the produced chunks
concatenate to the unconsumed suffix of the text, and every chunk is a
slice from some position to its split point, the last chunk being the
one whose split point reaches the end of the text. -/

theorem chunkLoop_spec (text : List Char) (mc : Int) (hmc : 1 ≤ mc) :
    ∀ (fuel : Nat) (start : Int) (acc : List (List Char)),
      0 ≤ start → start ≤ (text.length : Int) →
      (text.length : Int) - start < (fuel : Int) →
      ∃ rest : List (List Char),
        chunkLoop text mc fuel start acc = some (acc ++ rest) ∧
        rest.flatten = text.drop start.toNat ∧
        ((start = (text.length : Int) ∧ rest = []) ∨
          ∃ init lastC, rest = init ++ [lastC] ∧
            (∀ c ∈ init, ∃ s : Int, 0 ≤ s ∧ s < (text.length : Int) ∧
              splitPoint text mc s < (text.length : Int) ∧
              c = pySlice text s (splitPoint text mc s)) ∧
            (∃ s : Int, 0 ≤ s ∧ s < (text.length : Int) ∧
              splitPoint text mc s = (text.length : Int) ∧
              lastC = pySlice text s (splitPoint text mc s))) := by
  intro fuel
  induction fuel with
  | zero =>
    intro start acc h0 h1 h2
    exfalso
    omega
  | succ n ih =>
    intro start acc h0 h1 h2
    rw [chunkLoop]
    by_cases hlt : start < (text.length : Int)
    · rw [if_pos hlt]
      have hgt := splitPoint_gt text mc start hmc h0 hlt
      have hle := splitPoint_le text mc start
      obtain ⟨rest, heq, hjoin, hstruct⟩ :=
        ih (splitPoint text mc start)
          (acc ++ [pySlice text start (splitPoint text mc start)])
          (by omega) hle (by omega)
      refine ⟨pySlice text start (splitPoint text mc start) :: rest, ?_, ?_, ?_⟩
      · rw [heq]
        simp
      · rw [List.flatten_cons, hjoin]
        exact pySlice_join text start (splitPoint text mc start) h0 (le_of_lt hgt) hle
      · right
        rcases hstruct with ⟨hsp, hrest⟩ | ⟨init, lastC, hr, hinit, hlast⟩
        · subst hrest
          refine ⟨[], pySlice text start (splitPoint text mc start), by simp, ?_,
            start, h0, hlt, hsp, rfl⟩
          intro c hc
          simp at hc
        · have hsplt : splitPoint text mc start < (text.length : Int) := by
            rcases lt_or_eq_of_le hle with h | h
            · exact h
            · exfalso
              obtain ⟨s, hs0, hslen, hsp2, hlastC⟩ := hlast
              have hlen : ((pySlice text s (splitPoint text mc s)).length : Int) =
                  splitPoint text mc s - s := by
                apply pySlice_length text s _ hs0
                  (le_of_lt (splitPoint_gt text mc s hmc hs0 hslen))
                  (splitPoint_le text mc s)
              have hdrop : text.drop (splitPoint text mc start).toNat = [] := by
                have : (splitPoint text mc start).toNat = text.length := by omega
                rw [this, List.drop_length]
              rw [hdrop, hr, List.flatten_append] at hjoin
              have hnil := (List.append_eq_nil.mp hjoin).2
              simp only [List.flatten] at hnil
              have : lastC = [] := by
                rcases List.append_eq_nil.mp hnil with ⟨h1, _⟩
                exact h1
              rw [← hlastC, this] at hlen
              simp at hlen
              omega
          refine ⟨pySlice text start (splitPoint text mc start) :: init, lastC,
            by rw [hr]; rfl, ?_, hlast⟩
          intro c hc
          rcases List.mem_cons.mp hc with rfl | hc2
          · exact ⟨start, h0, hlt, hsplt, rfl⟩
          · exact hinit c hc2
    · rw [if_neg hlt]
      refine ⟨[], by simp, ?_, Or.inl ⟨by omega, rfl⟩⟩
      have : start.toNat = text.length := by omega
      rw [this, List.drop_length]
      rfl

theorem splitPoint_le_add (text : List Char) (mc start : Int) (hmc : 1 ≤ mc)
    (hs0 : 0 ≤ start) : splitPoint text mc start ≤ start + mc := by
  have e4 : hunkMarker.length = 4 := rfl
  have e13 : diffMarker.length = 13 := rfl
  have hcast : (pyNormIdx text.length (min (start + mc) (text.length : Int)) : Int) ≤
      min (start + mc) (text.length : Int) := by
    apply pyNormIdx_cast_le
    omega
  simp only [splitPoint]
  rcases pyRfind_cases text hunkMarker start (min (start + mc) (text.length : Int)) with h1 | ⟨j1, h1, hb1⟩ <;>
    rcases pyRfind_cases text diffMarker start (min (start + mc) (text.length : Int)) with h2 | ⟨j2, h2, hb2⟩ <;>
    rw [h1, h2] <;>
    split_ifs <;>
    omega

theorem keepChunk_true_iff (c : List Char) : keepChunk c = true ↔ pyStrip c ≠ [] := by
  unfold keepChunk
  simp

/-- Claim C8: for every non-empty text whose length is at most max_chars,
chunk_text returns exactly the one-element sequence containing the whole
text (entrypoint.py lines 96-97). -/
theorem c8_small_input_single_chunk (text : List Char) (mc : Int)
    (hne : text ≠ []) (hle : (text.length : Int) ≤ mc) :
    chunk_text text mc = some [text] := by
  unfold chunk_text
  rw [if_pos hle]

theorem c8_witness :
    (['a'] : List Char) ≠ [] ∧ (((['a'] : List Char).length : Int) ≤ 5) ∧
    chunk_text ['a'] 5 = some [['a']] :=
  ⟨by decide, by decide, c8_small_input_single_chunk ['a'] 5 (by decide) (by decide)⟩

/-- Claim C1, counterexample: for the non-empty text of two spaces and
max_chars 1, chunk_text returns the empty sequence (both one-character
chunks are whitespace-only and are removed by the final filter on line
108), so the concatenation of the returned chunks is empty and does not
reproduce the text. -/
theorem c1_counterexample :
    chunk_text [' ', ' '] 1 = some [] ∧
    List.flatten ([] : List (List Char)) ≠ [' ', ' '] := by decide

/-- Claim C1 as amended: for non-empty text and max_chars >= 1 the chunks
computed by the loop concatenate to the text exactly; the returned
sequence is either that sequence itself (when the text fits in one chunk)
or that sequence with whitespace-only chunks removed, so concatenation
reproduces the text exactly whenever no chunk is whitespace-only. -/
theorem c1_amended_concat (text : List Char) (mc : Int) (hmc : 1 ≤ mc)
    (hne : text ≠ []) :
    ∃ raw : List (List Char), raw.flatten = text ∧
      (chunk_text text mc = some raw ∨
        chunk_text text mc = some (raw.filter keepChunk)) := by
  unfold chunk_text
  by_cases hle : (text.length : Int) ≤ mc
  · rw [if_pos hle]
    exact ⟨[text], by simp, Or.inl rfl⟩
  · rw [if_neg hle]
    obtain ⟨rest, heq, hjoin, _⟩ :=
      chunkLoop_spec text mc hmc (text.length + 1) 0 [] le_rfl (by omega)
        (by push_cast; omega)
    refine ⟨rest, by simpa using hjoin, Or.inr ?_⟩
    rw [heq]
    simp

theorem c1_witness :
    ∃ raw : List (List Char), raw.flatten = ['a', 'b'] ∧
      (chunk_text ['a', 'b'] 1 = some raw ∨
        chunk_text ['a', 'b'] 1 = some (raw.filter keepChunk)) :=
  c1_amended_concat ['a', 'b'] 1 (by decide) (by decide)

/-- Claim C4, counterexample: for the one-space text and max_chars 10 the
length test on line 96 returns the unfiltered single chunk, which is
empty after trimming; so not every returned chunk is non-empty after
trimming. -/
theorem c4_counterexample :
    chunk_text [' '] 10 = some [[' ']] ∧ pyStrip [' '] = [] := by decide

/-- Claim C4 as amended: on the filtered path (max_chars >= 1 and
len(text) > max_chars) every returned chunk is non-empty after trimming,
and the returned sequence can only be empty when every character of the
text is whitespace; on the short path the single chunk [text] is
returned unfiltered and may be whitespace-only. -/
theorem c4_amended_chunks (text : List Char) (mc : Int) (hmc : 1 ≤ mc)
    (hgt : mc < (text.length : Int)) :
    ∃ res : List (List Char), chunk_text text mc = some res ∧
      (∀ c ∈ res, pyStrip c ≠ []) ∧
      (res = [] → ∀ x ∈ text, pyIsSpace x = true) := by
  unfold chunk_text
  rw [if_neg (by omega)]
  obtain ⟨rest, heq, hjoin, _⟩ :=
    chunkLoop_spec text mc hmc (text.length + 1) 0 [] le_rfl (by omega)
      (by push_cast; omega)
  refine ⟨rest.filter keepChunk, by rw [heq]; simp, ?_, ?_⟩
  · intro c hc
    exact (keepChunk_true_iff c).mp (List.of_mem_filter hc)
  · intro hres x hx
    have hall : ∀ c ∈ rest, keepChunk c = false := by
      intro c hc
      by_contra hne2
      have hmem : c ∈ rest.filter keepChunk :=
        List.mem_filter.mpr ⟨hc, by simpa using hne2⟩
      rw [hres] at hmem
      cases hmem
    have hx2 : x ∈ rest.flatten := by
      rw [hjoin]
      simpa using hx
    obtain ⟨c, hc, hxc⟩ := List.mem_flatten.mp hx2
    exact (keepChunk_false_iff c).mp (hall c hc) x hxc

theorem c4_witness :
    ∃ res : List (List Char), chunk_text ['a', 'b'] 1 = some res ∧
      (∀ c ∈ res, pyStrip c ≠ []) ∧
      (res = [] → ∀ x ∈ ['a', 'b'], pyIsSpace x = true) :=
  c4_amended_chunks ['a', 'b'] 1 (by decide) (by decide)

/-- Claim C9, counterexample on the spec's own scenario: a five-character
text with no marker at all (a single "hunk") and max_chars 2 is not
emitted as one oversized chunk; the hard cut at the window end splits it
into pieces of at most 2 characters. -/
theorem c9_counterexample :
    (chunk_text ['a', 'b', 'c', 'd', 'e'] 2).map (List.map List.length) =
      some [2, 2, 1] := by decide

/-- Claim C9 as amended: for max_chars >= 1 no returned chunk ever
exceeds max_chars; an oversized hunk is cut at window ends into pieces of
at most max_chars, because every split point lies within
start + max_chars. -/
theorem c9_amended_no_oversized (text : List Char) (mc : Int) (hmc : 1 ≤ mc) :
    ∃ res : List (List Char), chunk_text text mc = some res ∧
      ∀ c ∈ res, (c.length : Int) ≤ mc := by
  unfold chunk_text
  by_cases hle : (text.length : Int) ≤ mc
  · rw [if_pos hle]
    refine ⟨[text], rfl, ?_⟩
    intro c hc
    rcases List.mem_singleton.mp hc with rfl
    exact hle
  · rw [if_neg hle]
    obtain ⟨rest, heq, hjoin, hstruct⟩ :=
      chunkLoop_spec text mc hmc (text.length + 1) 0 [] le_rfl (by omega)
        (by push_cast; omega)
    refine ⟨rest.filter keepChunk, by rw [heq]; simp, ?_⟩
    intro c hc
    have hcr : c ∈ rest := List.mem_of_mem_filter hc
    have hsz : ∀ s : Int, 0 ≤ s → s < (text.length : Int) →
        ((pySlice text s (splitPoint text mc s)).length : Int) ≤ mc := by
      intro s hs0 hslen
      rw [pySlice_length text s _ hs0
        (le_of_lt (splitPoint_gt text mc s hmc hs0 hslen))
        (splitPoint_le text mc s)]
      have := splitPoint_le_add text mc s hmc hs0
      omega
    rcases hstruct with ⟨h0len, _⟩ | ⟨init, lastC, hr, hinit, hlast⟩
    · exfalso
      omega
    · rw [hr] at hcr
      rcases List.mem_append.mp hcr with hc2 | hc2
      · obtain ⟨s, hs0, hslen, _, hceq⟩ := hinit c hc2
        rw [hceq]
        exact hsz s hs0 hslen
      · rcases List.mem_singleton.mp hc2 with rfl
        obtain ⟨s, hs0, hslen, _, hceq⟩ := hlast
        rw [hceq]
        exact hsz s hs0 hslen

theorem c9_witness :
    ∃ res : List (List Char), chunk_text ['a', 'b', 'c'] 2 = some res ∧
      ∀ c ∈ res, (c.length : Int) ≤ 2 :=
  c9_amended_no_oversized ['a', 'b', 'c'] 2 (by decide)

/-- Claim C10: for 0 < max_chars <= 1000 and len(text) > max_chars, no
marker-based split can pass the minimum-distance test (a marker found by
rfind lies at least marker-length before the window end, hence at most
start + 1000 - 4), so every split is at the window end and every
returned chunk except possibly the last has length exactly max_chars. -/
theorem c10_small_window_exact_chunks (text : List Char) (mc : Int)
    (hmc : 1 ≤ mc) (hmc2 : mc ≤ 1000) (hgt : mc < (text.length : Int)) :
    ∃ res : List (List Char), chunk_text text mc = some res ∧
      ∀ c ∈ res.dropLast, (c.length : Int) = mc := by
  unfold chunk_text
  rw [if_neg (by omega)]
  obtain ⟨rest, heq, hjoin, hstruct⟩ :=
    chunkLoop_spec text mc hmc (text.length + 1) 0 [] le_rfl (by omega)
      (by push_cast; omega)
  refine ⟨rest.filter keepChunk, by rw [heq]; simp, ?_⟩
  rcases hstruct with ⟨h0len, _⟩ | ⟨init, lastC, hr, hinit, _⟩
  · exfalso
    omega
  · have hinitlen : ∀ c ∈ init, (c.length : Int) = mc := by
      intro c hc
      obtain ⟨s, hs0, hslen, hsplt, hceq⟩ := hinit c hc
      have hspmin := splitPoint_eq_min text mc s hmc hmc2 hs0
      have hsp : splitPoint text mc s = s + mc := by omega
      rw [hceq, pySlice_length text s _ hs0
        (le_of_lt (splitPoint_gt text mc s hmc hs0 hslen))
        (splitPoint_le text mc s)]
      omega
    rw [hr, List.filter_append]
    by_cases hkeep : keepChunk lastC
    · have : List.filter keepChunk [lastC] = [lastC] := by
        simp [hkeep]
      rw [this, List.dropLast_concat]
      intro c hc
      exact hinitlen c (List.mem_of_mem_filter hc)
    · have : List.filter keepChunk [lastC] = [] := by
        simp [hkeep]
      rw [this, List.append_nil]
      intro c hc
      exact hinitlen c
        (List.mem_of_mem_filter ((List.dropLast_sublist _).subset hc))

theorem c10_witness :
    ∃ res : List (List Char), chunk_text ['a', 'b', 'c'] 1 = some res ∧
      ∀ c ∈ res.dropLast, (c.length : Int) = 1 :=
  c10_small_window_exact_chunks ['a', 'b', 'c'] 1 (by decide) (by decide) (by decide)

/-- Claim C3: the code does not satisfy it.  For the non-empty one-space
text and max_chars = 0 the loop body computes end = min(start + 0, 1) =
start, no marker fits in the empty window, so the split point equals
start and start never advances: the loop returns no result for any
amount of fuel, i.e. the Python while-loop runs forever. -/
theorem c3_loop_never_terminates :
    ∀ (fuel : Nat) (acc : List (List Char)),
      chunkLoop [' '] 0 fuel 0 acc = none := by
  intro fuel
  induction fuel with
  | zero =>
    intro acc
    rfl
  | succ n ih =>
    intro acc
    rw [chunkLoop]
    rw [if_pos (by decide)]
    have hs : splitPoint [' '] 0 0 = 0 := by decide
    rw [hs]
    exact ih _

/-- Claim C2: the code does not satisfy it.  c2DemoText has a real
newline followed by two at-signs at position 1001, inside the window
[0, 1005] and more than 1000 characters after the window start, so the
claim requires the first split at 1001.  The code instead searches for
the literal backslash-n-@@ sequence (the Python literal is escaped),
finds nothing, and hard-cuts at the window end: the chunks have lengths
1005 and 1, not 1001 and 5. -/
theorem c2_code_splits_at_window_end :
    (c2DemoText.drop 1001).take 3 = ['\n', '@', '@'] ∧
    (chunk_text c2DemoText 1005).map (List.map List.length) = some [1005, 1] := by
  decide

theorem tryCandidates_some (o : GitOracle) (l : List (List Char)) (s : List Char) :
    tryCandidates o l = some s →
    ∃ cand out, cand ∈ l ∧ o.diff3 cand = .ok out ∧ s = pyStrip out := by
  induction l with
  | nil =>
    intro h
    simp [tryCandidates] at h
  | cons b rest ih =>
    intro h
    rw [tryCandidates] at h
    cases hrv : o.revParse b with
    | ok r =>
      simp only [hrv] at h
      cases hd : o.diff3 b with
      | ok out =>
        simp only [hd, Option.some.injEq] at h
        exact ⟨b, out, List.mem_cons_self b rest, hd, h.symm⟩
      | error e =>
        simp only [hd] at h
        obtain ⟨cand, out, hmem, hdiff, hs⟩ := ih h
        exact ⟨cand, out, List.mem_cons_of_mem b hmem, hdiff, hs⟩
    | error e =>
      simp only [hrv] at h
      obtain ⟨cand, out, hmem, hdiff, hs⟩ := ih h
      exact ⟨cand, out, List.mem_cons_of_mem b hmem, hdiff, hs⟩

theorem lastResort_spec (o : GitOracle) :
    ∃ s, lastResort o = .ok s ∧ pyStrip s = s ∧
      (s = [] →
        (∃ out, o.diffHead = .ok out ∧ pyStrip out = []) ∨
        o.diffHead = .error ()) := by
  cases hd : o.diffHead with
  | ok out =>
    refine ⟨pyStrip out, ?_, pyStrip_idem out, ?_⟩
    · unfold lastResort
      rw [hd]
    · intro h
      exact Or.inl ⟨out, rfl, h⟩
  | error e =>
    cases e
    refine ⟨[], ?_, rfl, fun _ => Or.inr rfl⟩
    unfold lastResort
    rw [hd]

/-- Claim C5, counterexample: in c5Oracle the first strategy succeeds
(origin/b rev-parses and the three-dot diff exits 0) yet get_diff
returns the empty string, because that successful diff had empty output;
the HEAD~1..HEAD strategy, which would have produced output, is never
reached.  So an empty result does not imply that every strategy in the
chain failed. -/
theorem c5_counterexample :
    get_diff c5Oracle ['b'] ['h'] = .ok [] ∧
    c5Oracle.diff3 ("origin/".data ++ ['b']) = .ok [] ∧
    c5Oracle.diffHead = .ok ['+', 'x'] :=
  ⟨rfl, rfl, rfl⟩

/-- Claim C5 as amended: get_diff never lets a git failure escape (the
result is always .ok), every returned value is strip-fixed (whitespace
trimmed), and the empty string is returned only when the strategy that
produced the result succeeded with whitespace-only output or the final
HEAD~1..HEAD fallback failed. -/
theorem c5_amended_resolver (o : GitOracle) (b h : List Char) :
    ∃ s, get_diff o b h = .ok s ∧ pyStrip s = s ∧
      (s = [] →
        (∃ cand out, cand ∈ candidates b ∧ o.diff3 cand = .ok out ∧
          pyStrip out = []) ∨
        (∃ mb out, o.mergeBase = .ok mb ∧ o.diff2 (pyStrip mb) = .ok out ∧
          pyStrip out = []) ∨
        (∃ out, o.diffHead = .ok out ∧ pyStrip out = []) ∨
        o.diffHead = .error ()) := by
  unfold get_diff
  cases htc : tryCandidates o (candidates b) with
  | some out0 =>
    obtain ⟨cand, out, hmem, hdiff, hs⟩ := tryCandidates_some o (candidates b) out0 htc
    refine ⟨out0, by simp [htc], ?_, ?_⟩
    · rw [hs]
      exact pyStrip_idem out
    · intro hempty
      refine Or.inl ⟨cand, out, hmem, hdiff, ?_⟩
      rw [← hs]
      exact hempty
  | none =>
    cases hmb : o.mergeBase with
    | ok mbOut =>
      by_cases hne : pyStrip mbOut ≠ []
      · cases hd2 : o.diff2 (pyStrip mbOut) with
        | ok out =>
          refine ⟨pyStrip out, ?_, pyStrip_idem out, ?_⟩
          · simp only [htc, hmb, if_pos hne, hd2]
          · intro hempty
            exact Or.inr (Or.inl ⟨mbOut, out, rfl, hd2, hempty⟩)
        | error e =>
          obtain ⟨s, hsr, hst, hse⟩ := lastResort_spec o
          refine ⟨s, ?_, hst, fun he => Or.inr (Or.inr (hse he))⟩
          simp only [htc, hmb, if_pos hne, hd2]
          exact hsr
      · obtain ⟨s, hsr, hst, hse⟩ := lastResort_spec o
        refine ⟨s, ?_, hst, fun he => Or.inr (Or.inr (hse he))⟩
        simp only [htc, hmb, if_neg hne]
        exact hsr
    | error e =>
      cases e
      obtain ⟨s, hsr, hst, hse⟩ := lastResort_spec o
      refine ⟨s, ?_, hst, fun he => Or.inr (Or.inr (hse he))⟩
      simp only [htc, hmb]
      exact hsr

theorem c5_witness :
    ∃ s, get_diff allFailOracle ['b'] ['h'] = .ok s ∧ pyStrip s = s ∧
      (s = [] →
        (∃ cand out, cand ∈ candidates ['b'] ∧
          allFailOracle.diff3 cand = .ok out ∧ pyStrip out = []) ∨
        (∃ mb out, allFailOracle.mergeBase = .ok mb ∧
          allFailOracle.diff2 (pyStrip mb) = .ok out ∧ pyStrip out = []) ∨
        (∃ out, allFailOracle.diffHead = .ok out ∧ pyStrip out = []) ∨
        allFailOracle.diffHead = .error ()) :=
  c5_amended_resolver allFailOracle ['b'] ['h']

/-- Claim C6: when origin/<base_ref> rev-parses to a valid revision and
the three-dot diff against it succeeds, get_diff returns that diff's
output trimmed, whatever the outcomes of the plain base_ref candidate,
the merge-base strategy, and the HEAD~1..HEAD fallback (the result does
not depend on any other oracle field). -/
theorem c6_first_candidate_short_circuits (o : GitOracle) (b h r out : List Char)
    (hrev : o.revParse ("origin/".data ++ b) = .ok r)
    (hdiff : o.diff3 ("origin/".data ++ b) = .ok out) :
    get_diff o b h = .ok (pyStrip out) := by
  unfold get_diff candidates
  rw [tryCandidates]
  simp only [hrev, hdiff]

theorem c6_witness : get_diff c6Oracle ['m'] ['h'] = .ok (pyStrip ['+', 'a']) :=
  c6_first_candidate_short_circuits c6Oracle ['m'] ['h'] ['s'] ['+', 'a'] rfl rfl

/-- Claim C7: a body longer than 18000 characters is posted as the fixed
truncation notice followed by exactly the last 18000 characters of the
original body (total length notice-length + 18000); a body of at most
18000 characters is posted unchanged (entrypoint.py lines 187-190). -/
theorem c7_truncation (body : List Char) :
    (18000 < body.length →
      finalizeBody body = truncNotice ++ body.drop (body.length - 18000) ∧
      (finalizeBody body).length = truncNotice.length + 18000) ∧
    (body.length ≤ 18000 → finalizeBody body = body) := by
  constructor
  · intro hbig
    have ha : pyNormIdx body.length (-18000) = body.length - 18000 := by
      unfold pyNormIdx
      rw [if_pos (by omega)]
      omega
    have hb : pyNormIdx body.length ((body.length : Nat) : Int) = body.length := by
      rw [pyNormIdx_of_le body.length _ (by omega) (by omega)]
      omega
    have hslice : pySlice body (-18000) (body.length : Int) =
        body.drop (body.length - 18000) := by
      unfold pySlice
      rw [ha, hb, List.take_length]
    have hfin : finalizeBody body = truncNotice ++ body.drop (body.length - 18000) := by
      unfold finalizeBody
      rw [if_pos hbig, hslice]
    refine ⟨hfin, ?_⟩
    rw [hfin, List.length_append, List.length_drop]
    omega
  · intro hsmall
    unfold finalizeBody
    rw [if_neg (by omega)]

theorem c7_witness :
    18000 < (List.replicate 18001 'a').length ∧
    (finalizeBody (List.replicate 18001 'a')).length =
      truncNotice.length + 18000 := by
  have hlen : 18000 < (List.replicate 18001 'a').length := by
    rw [List.length_replicate]
    omega
  exact ⟨hlen, ((c7_truncation (List.replicate 18001 'a')).1 hlen).2⟩
